import Mathlib

/-!
# Verification of the file-manager server's path validation and dispatch logic

This development shallowly embeds the core of `src/index.ts` (class
`FileManagerServer`): the path validation helper `validatePath`, the six
operation handlers, and the call-dispatch boundary.  Paths are modelled as
`List Char` (the server runs Node's posix `path` semantics; `path.sep = '/'`).
The Node `path` functions used by the source (`path.resolve`, `path.normalize`,
`path.join`, `path.dirname`) are translated from Node's `lib/path.js`
segment-stack algorithm (`normalizeString`).  One caveat is recorded where
Node consults ambient state: `path.resolve` prepends `process.cwd()` when its
result is still relative; the server is analysed with an absolute base
directory, for which the translation is exact.
-/

set_option maxHeartbeats 1000000
set_option maxRecDepth 8192

namespace FileManager

/-- The posix path separator, `path.sep`. -/
def sepC : Char := '/'

/-- The segment `"."`. -/
def dotSeg : List Char := ".".data

/-- The segment `".."`. -/
def ddSeg : List Char := "..".data

/-- `headIs p c`: the first character of `p` is `c` (JS `p[0] === c`). -/
def headIs (p : List Char) (c : Char) : Bool :=
  match p with
  | [] => false
  | a :: _ => decide (a = c)

/-- `lastIs p c`: the final character of `p` is `c`
(JS `p.charCodeAt(p.length - 1) === c`). -/
def lastIs (p : List Char) (c : Char) : Bool :=
  match p with
  | [] => false
  | [a] => decide (a = c)
  | _ :: t => lastIs t c

/-- Boolean string-prefix test, JS `hay.startsWith(pre)` is `lpre pre hay`. -/
def lpre : List Char → List Char → Bool
  | [], _ => true
  | _ :: _, [] => false
  | a :: x, b :: y => decide (a = b) && lpre x y

/-- Substring containment, JS `hay.includes(needle)` is `lsub needle hay`. -/
def lsub (needle : List Char) : List Char → Bool
  | [] => needle.isEmpty
  | c :: t => lpre needle (c :: t) || lsub needle t

/-- Split a character list at every `'/'`, keeping empty segments
(as Node's `normalizeString` does while scanning the string). -/
def splitSegs : List Char → List (List Char)
  | [] => [[]]
  | c :: cs =>
    if c = sepC then [] :: splitSegs cs
    else
      match splitSegs cs with
      | [] => [[c]]
      | s :: rest => (c :: s) :: rest

/-- One step of Node's `normalizeString` segment stack: skip empty and `"."`
segments, pop a real segment on `".."` (or keep/emit `".."` above the root
only when `allowAbove` is set, i.e. for relative paths), push anything else.
The stack grows to the left; the head is the most recent segment. -/
def step (allowAbove : Bool) (acc : List (List Char)) (seg : List Char) :
    List (List Char) :=
  if seg = [] ∨ seg = dotSeg then acc
  else if seg = ddSeg then
    match acc with
    | [] => if allowAbove then [ddSeg] else []
    | t :: rest => if t = ddSeg then (if allowAbove then seg :: acc else acc) else rest
  else seg :: acc

/-- The normalized segment list of a path, in left-to-right order
(Node `normalizeString(path, allowAboveRoot, '/')`). -/
def normStack (allowAbove : Bool) (segs : List (List Char)) : List (List Char) :=
  (segs.foldl (step allowAbove) []).reverse

/-- Join segments with `'/'` (no leading or trailing separator). -/
def joinSegs : List (List Char) → List Char
  | [] => []
  | [s] => s
  | s :: rest => s ++ sepC :: joinSegs rest

/-- `flat segs` prepends a `'/'` to every segment and concatenates:
the spelling of an absolute path with a nonempty segment list. -/
def flat : List (List Char) → List Char
  | [] => []
  | s :: rest => sepC :: (s ++ flat rest)

/-- The absolute path with the given segment list (`"/"` when empty). -/
def absOf (segs : List (List Char)) : List Char :=
  sepC :: joinSegs segs

/-- A clean path segment: nonempty, not `"."`, not `".."`, and containing
no separator.  After resolution against an absolute base, every surviving
segment is clean. -/
def goodSeg (s : List Char) : Prop :=
  s ≠ [] ∧ s ≠ dotSeg ∧ s ≠ ddSeg ∧ sepC ∉ s

instance (s : List Char) : Decidable (goodSeg s) := by
  unfold goodSeg; infer_instance

/-- Node posix `path.normalize`. -/
def normalizeL (p : List Char) : List Char :=
  if p = [] then dotSeg
  else
    let isAbs := headIs p sepC
    let trail := lastIs p sepC
    let body := joinSegs (normStack (!isAbs) (splitSegs p))
    if body = [] then
      if isAbs then [sepC] else if trail then dotSeg ++ [sepC] else dotSeg
    else
      let body2 := if trail then body ++ [sepC] else body
      if isAbs then sepC :: body2 else body2

/-- Node posix `path.resolve(base, p)` for an absolute `base`.  When `p` is
absolute the base is discarded; otherwise the two are joined and the result
is normalized with `allowAboveRoot = false`.  (When both arguments are
relative, Node additionally prepends `process.cwd()`; the server's base path
is analysed as absolute, so that ambient branch is intentionally absent and
the relative branch below mirrors bare `normalizeString`.) -/
def resolveL (base p : List Char) : List Char :=
  let joined := if headIs p sepC then p else base ++ sepC :: p
  if headIs joined sepC then
    sepC :: joinSegs (normStack false (splitSegs joined))
  else
    let body := joinSegs (normStack true (splitSegs joined))
    if body = [] then dotSeg else body

/-- Node posix `path.join(a, b)` (empty parts are skipped, then the joined
string is normalized). -/
def joinL (a b : List Char) : List Char :=
  let joined := if a = [] then b else if b = [] then a else a ++ sepC :: b
  if joined = [] then dotSeg else normalizeL joined

/-- Node posix `path.dirname`. -/
def dirnameL (p : List Char) : List Char :=
  match p with
  | [] => dotSeg
  | c0 :: t =>
    let hasRoot := decide (c0 = sepC)
    let r1 := t.reverse.dropWhile (fun c => c = sepC)
    let r2 := r1.dropWhile (fun c => ¬ c = sepC)
    match r2 with
    | [] => if hasRoot then [sepC] else dotSeg
    | _ :: r3 =>
      if hasRoot ∧ r3 = [] then [sepC, sepC]
      else c0 :: r3.reverse

/-- Node posix `path.basename` (no extension stripping; trailing separators
are ignored). -/
def basenameL (p : List Char) : List Char :=
  ((p.reverse.dropWhile (fun c => c = sepC)).takeWhile (fun c => ¬ c = sepC)).reverse

/-- First half of the access-denied message of `validatePath`. -/
def adMsg1 : List Char := "Access denied: Path '".data

/-- Second half of the access-denied message of `validatePath`. -/
def adMsg2 : List Char := "' resolves outside the allowed directory.".data

/-- The body of `validatePath` (src/index.ts:220-229): resolve the input
against the base, normalize the base with a trailing separator appended,
and reject unless the normalized resolution starts with that prefix or
equals the normalized base.  On success the (already normalized) resolution
is returned. -/
def validateCore (base inputPath : List Char) : Except (List Char) (List Char) :=
  let resolvedPath := resolveL base inputPath
  let normalizedAllowedBasePath := normalizeL (base ++ [sepC])
  let normalizedResolvedPath := normalizeL resolvedPath
  if lpre normalizedAllowedBasePath normalizedResolvedPath = false ∧
      normalizedResolvedPath ≠ normalizeL base then
    .error (adMsg1 ++ inputPath ++ adMsg2)
  else
    .ok resolvedPath

/-- `validatePath` (src/index.ts:216-230).  The source opens with
`if (inputPath.includes("..")) { }` whose body is empty, so both sides of
that branch continue into the same resolution logic. -/
def validatePathL (base inputPath : List Char) : Except (List Char) (List Char) :=
  if lsub ddSeg inputPath then validateCore base inputPath
  else validateCore base inputPath

/-- Modelled from the spec (§4.1): the reference acceptance rule, in the
spec's own words — "accept if the normalized result equals normalized
`root`, or if it begins with normalized `root` followed by a separator",
where the result is the resolution of the request path against the root. -/
def specAccepts (root input : List Char) : Bool :=
  let n := normalizeL (resolveL root input)
  decide (n = normalizeL root) || lpre (normalizeL root ++ [sepC]) n

/-- Whether an `Except` carries a success. -/
def isOkB {ε α : Type} : Except ε α → Bool
  | .ok _ => true
  | .error _ => false

instance {ε α : Type} [DecidableEq ε] [DecidableEq α] : DecidableEq (Except ε α) :=
  fun x y =>
  match x, y with
  | .ok a, .ok b =>
    if h : a = b then .isTrue (congrArg Except.ok h)
    else .isFalse (fun hh => h (Except.ok.inj hh))
  | .error a, .error b =>
    if h : a = b then .isTrue (congrArg Except.error h)
    else .isFalse (fun hh => h (Except.error.inj hh))
  | .ok _, .error _ => .isFalse (fun hh => Except.noConfusion hh)
  | .error _, .ok _ => .isFalse (fun hh => Except.noConfusion hh)

/-! ## Filesystem model

The handlers call Node's `fs/promises` API.  That storage layer is external
to the repository, so it is modelled: an association list from absolute path
strings to entries.  A directory entry records its child dirents explicitly
(what `readdir(..., { withFileTypes: true })` enumerates), so that a state
where a listed child has no entry of its own represents the
enumeration/stat race tolerated by `listDirectory`. -/

/-- A directory child as enumerated by `fs.readdir` with `withFileTypes`. -/
structure Dirent where
  name : List Char
  isDir : Bool
deriving DecidableEq

/-- Stat metadata stored with an entry (`size` is only consulted for
directories; a file's size is the length of its content). -/
structure FileMeta where
  size : Nat
  mtimeMs : Nat
  birthtimeMs : Nat
  atimeMs : Nat
  mode : Nat
deriving DecidableEq

/-- A filesystem object: a text file with content, or a directory with its
enumerable children. -/
inductive Entry where
  | file : List Char → FileMeta → Entry
  | dir : List Dirent → FileMeta → Entry
deriving DecidableEq

/-- Filesystem state: entries keyed by absolute path, plus a clock used to
timestamp newly created entries. -/
structure FS where
  entries : List (List Char × Entry)
  clock : Nat
deriving DecidableEq

/-- The result of `fs.stat`. -/
structure Stats where
  isDir : Bool
  size : Nat
  mtimeMs : Nat
  birthtimeMs : Nat
  atimeMs : Nat
  mode : Nat
deriving DecidableEq

/-- `fs.stat` data for an entry. -/
def statOf : Entry → Stats
  | .file c m => ⟨false, c.length, m.mtimeMs, m.birthtimeMs, m.atimeMs, m.mode⟩
  | .dir _ m => ⟨true, m.size, m.mtimeMs, m.birthtimeMs, m.atimeMs, m.mode⟩

/-- Lookup in the entry list. -/
def fsLookupE : List (List Char × Entry) → List Char → Option Entry
  | [], _ => none
  | (k0, e0) :: t, k => if k0 = k then some e0 else fsLookupE t k

/-- Lookup an absolute path in the filesystem. -/
def fsLookup (fs : FS) (k : List Char) : Option Entry :=
  fsLookupE fs.entries k

/-- Insert or replace the entry at a key. -/
def fsInsertE : List (List Char × Entry) → List Char → Entry → List (List Char × Entry)
  | [], k, e => [(k, e)]
  | (k0, e0) :: t, k, e => if k0 = k then (k, e) :: t else (k0, e0) :: fsInsertE t k e

/-- Insert or replace an entry in the filesystem. -/
def fsInsert (fs : FS) (k : List Char) (e : Entry) : FS :=
  ⟨fsInsertE fs.entries k e, fs.clock⟩

/-- Record a new child dirent under `parent` (no-op if the name is already
listed or `parent` is not a directory). -/
def addDirentE : List (List Char × Entry) → List Char → Dirent → List (List Char × Entry)
  | [], _, _ => []
  | (k0, e0) :: t, parent, d =>
    if k0 = parent then
      (k0,
        match e0 with
        | .dir ch m => .dir (if ch.any (fun x => x.name = d.name) then ch else ch ++ [d]) m
        | e => e) :: t
    else (k0, e0) :: addDirentE t parent d

/-- Record a new child dirent in the filesystem. -/
def addDirent (fs : FS) (parent : List Char) (d : Dirent) : FS :=
  ⟨addDirentE fs.entries parent d, fs.clock⟩

/-- Remove the entry at a key (`fs.unlink`). -/
def fsErase (fs : FS) (k : List Char) : FS :=
  ⟨fs.entries.filter (fun kv => ¬ kv.1 = k), fs.clock⟩

/-- Remove an entry and everything below it (`fs.rm` with `recursive`). -/
def fsRemoveTree (fs : FS) (k : List Char) : FS :=
  ⟨fs.entries.filter (fun kv => ¬ (kv.1 = k ∨ lpre (k ++ [sepC]) kv.1 = true)), fs.clock⟩

/-- Drop a child dirent from `parent`'s enumeration. -/
def removeDirent (fs : FS) (parent name : List Char) : FS :=
  ⟨fs.entries.map (fun kv =>
      if kv.1 = parent then
        (kv.1,
          match kv.2 with
          | .dir ch m => Entry.dir (ch.filter (fun d => ¬ d.name = name)) m
          | e => e)
      else kv),
    fs.clock⟩

/-- Metadata for an entry created at clock time `t` (mode `0o644`). -/
def metaAt (t : Nat) : FileMeta := ⟨0, t, t, t, 420⟩

/-- A Node error: the thrown object's `message`, plus its `code` for system
errors (`undefined`, i.e. `none`, for plain `new Error(...)`). -/
structure NodeErr where
  code : Option (List Char)
  message : List Char
deriving DecidableEq

/-- An error thrown with `new Error(message)`. -/
def userErr (m : List Char) : NodeErr := ⟨none, m⟩

/-- A Node `ENOENT` system error for the given syscall and path. -/
def enoentErr (syscall p : List Char) : NodeErr :=
  ⟨some ("ENOENT".data),
    "ENOENT: no such file or directory, ".data ++ syscall ++ (" '".data ++ p ++ "'".data)⟩

/-- A Node `ENOTDIR` system error. -/
def enotdirErr (syscall p : List Char) : NodeErr :=
  ⟨some ("ENOTDIR".data),
    "ENOTDIR: not a directory, ".data ++ syscall ++ (" '".data ++ p ++ "'".data)⟩

/-- A Node `EEXIST` system error. -/
def eexistErr (syscall p : List Char) : NodeErr :=
  ⟨some ("EEXIST".data),
    "EEXIST: file already exists, ".data ++ syscall ++ (" '".data ++ p ++ "'".data)⟩

/-- The response envelope: `{ content: [{ type: "text", text }, ...] }`,
modelled as the list of `text` payloads (every content item in the source
has `type: "text"`). -/
structure Response where
  content : List (List Char)
deriving DecidableEq

/-- A single-text response, the only success shape the handlers build. -/
def mkResp (t : List Char) : Response := ⟨[t]⟩

/-- Modelled from the spec: `Date#toISOString` (an external library call) is
modelled as an injective rendering of the millisecond timestamp. -/
def isoOf (ms : Nat) : List Char := Nat.toDigits 10 ms

/-- The `type` string reported for a dirent or stat result. -/
def typeStr (isDir : Bool) : List Char :=
  if isDir then "directory".data else "file".data

/-- The per-child error marker used by `listDirectory`. -/
def statFailMsg : List Char := "Could not retrieve stats for this item.".data

/-- One result row of `listDirectory`: the source builds either
`{name, type, size, modified}` after a successful stat, or
`{name, type, error}` when the stat fails. -/
inductive ListedEntry where
  | ok : (name : List Char) → (type : List Char) → (size : Nat) →
      (modified : List Char) → ListedEntry
  | degraded : (name : List Char) → (type : List Char) → (errMsg : List Char) →
      ListedEntry
deriving DecidableEq

/-- The row produced for one enumerated child of `safePath` (src/index.ts:
238-263): stat `path.join(safePath, item.name)`; on success report size and
mtime, on failure fall back to the error-marker row, keeping the `type` that
the dirent itself reported. -/
def entryFor (fs : FS) (sp : List Char) (d : Dirent) : ListedEntry :=
  match fsLookup fs (joinL sp d.name) with
  | some e => .ok d.name (typeStr d.isDir) (statOf e).size (isoOf (statOf e).mtimeMs)
  | none => .degraded d.name (typeStr d.isDir) statFailMsg

/-- Modelled from the spec: `JSON.stringify` (an external library call) is
modelled as a concrete rendering of the same fields in source order. -/
def renderEntry : ListedEntry → List Char
  | .ok n ty sz mo =>
    "(name: ".data ++ n ++ (", type: ".data ++ ty ++ (", size: ".data ++
      Nat.toDigits 10 sz ++ (", modified: ".data ++ mo ++ ")".data)))
  | .degraded n ty er =>
    "(name: ".data ++ n ++ (", type: ".data ++ ty ++ (", error: ".data ++ er ++ ")".data))

/-- Modelled from the spec: the serialized `{path, contents}` payload of a
directory listing; `path` is the caller's original request path. -/
def renderListing (p : List Char) (es : List ListedEntry) : List Char :=
  "(path: ".data ++ p ++ (", contents: [".data ++
    (es.map renderEntry).foldr (fun a b => a ++ b) [] ++ "])".data)

/-- Modelled from the spec: the serialized `FileInfo` payload, fields in
source order; `path` is the caller's original request path. -/
def renderInfo (p : List Char) (st : Stats) : List Char :=
  "(path: ".data ++ p ++ (", type: ".data ++ typeStr st.isDir ++
    (", size: ".data ++ Nat.toDigits 10 st.size ++
    (", created: ".data ++ isoOf st.birthtimeMs ++
    (", modified: ".data ++ isoOf st.mtimeMs ++
    (", accessed: ".data ++ isoOf st.atimeMs ++
    (", permissions: ".data ++ Nat.toDigits 8 (st.mode &&& 511) ++ ")".data))))))

/-- `listDirectory` (src/index.ts:233-278): validate, enumerate, stat each
child (degrading to an error row on failure), and answer with the original
request path alongside the rows. -/
def listDirectory (root : List Char) (fs : FS) (dirPath : List Char) :
    Except NodeErr (Response × FS) :=
  match validatePathL root dirPath with
  | .error m => .error (userErr m)
  | .ok safePath =>
    match fsLookup fs safePath with
    | none => .error (enoentErr ("scandir".data) safePath)
    | some (.file _ _) => .error (enotdirErr ("scandir".data) safePath)
    | some (.dir children _) =>
      .ok (mkResp (renderListing dirPath (children.map (entryFor fs safePath))), fs)

/-- `readFile` (src/index.ts:280-297): validate, reject directories, and
return the file's content as the response text. -/
def readFile (root : List Char) (fs : FS) (filePath : List Char) :
    Except NodeErr (Response × FS) :=
  match validatePathL root filePath with
  | .error m => .error (userErr m)
  | .ok safePath =>
    match fsLookup fs safePath with
    | none => .error (enoentErr ("stat".data) safePath)
    | some (.dir _ _) =>
      .error (userErr ("Path '".data ++ filePath ++ "' is a directory, not a file.".data))
    | some (.file c _) => .ok (mkResp c, fs)

/-- `writeFile` (src/index.ts:299-332): validate; fail if the parent
directory is absent (`fs.access`); fail if the target is an existing
directory (a stat `ENOENT` is swallowed, any other stat error would be
rethrown — in this model a stat either succeeds or is `ENOENT`); then create
or fully overwrite the file. -/
def writeFile (root : List Char) (fs : FS) (filePath content : List Char) :
    Except NodeErr (Response × FS) :=
  match validatePathL root filePath with
  | .error m => .error (userErr m)
  | .ok safePath =>
    match fsLookupE fs.entries (dirnameL safePath) with
    | none =>
      .error (userErr ("Parent directory for '".data ++ filePath ++
        "' does not exist or is not accessible.".data))
    | some pe =>
      match fsLookupE fs.entries safePath with
      | some (.dir _ _) =>
        .error (userErr ("Path '".data ++ filePath ++
          "' is an existing directory. Cannot overwrite a directory with a file.".data))
      | some (.file _ _) =>
        .ok (mkResp ("File written successfully: ".data ++ filePath),
          fsInsert fs safePath (.file content (metaAt fs.clock)))
      | none =>
        match pe with
        | .dir _ _ =>
          .ok (mkResp ("File written successfully: ".data ++ filePath),
            addDirent (fsInsert fs safePath (.file content (metaAt fs.clock)))
              (dirnameL safePath) ⟨basenameL safePath, false⟩)
        | .file _ _ => .error (enotdirErr ("open".data) safePath)

/-- The recursive-creation loop of `fs.mkdir(safePath, { recursive: true })`:
walk up through missing ancestors and create them.  The fuel bounds the
ancestor chain (every `dirname` is strictly shorter); it cannot run out for
the resolved absolute paths the handler passes in. -/
def mkdirpAux : Nat → FS → List Char → Except NodeErr FS
  | 0, _, sp => .error ⟨some ("EIO".data), "EIO: i/o error, mkdir '".data ++ sp ++ "'".data⟩
  | fuel + 1, fs, sp =>
    match fsLookupE fs.entries sp with
    | some (.dir _ _) => .ok fs
    | some (.file _ _) => .error (eexistErr ("mkdir".data) sp)
    | none =>
      if sp = [sepC] then .ok (fsInsert fs [sepC] (.dir [] (metaAt fs.clock)))
      else
        match mkdirpAux fuel fs (dirnameL sp) with
        | .error e => .error e
        | .ok fs2 =>
          .ok (addDirent (fsInsert fs2 sp (.dir [] (metaAt fs2.clock)))
            (dirnameL sp) ⟨basenameL sp, true⟩)

/-- `createDirectory` (src/index.ts:334-346): validate, then
`fs.mkdir(safePath, { recursive: true })`. -/
def createDirectory (root : List Char) (fs : FS) (dirPath : List Char) :
    Except NodeErr (Response × FS) :=
  match validatePathL root dirPath with
  | .error m => .error (userErr m)
  | .ok safePath =>
    match mkdirpAux (safePath.length + 1) fs safePath with
    | .error e => .error e
    | .ok fs2 => .ok (mkResp ("Directory created: ".data ++ dirPath), fs2)

/-- `deleteItem` (src/index.ts:348-366): validate, stat (so a missing target
fails), then remove recursively for a directory or unlink for a file. -/
def deleteItem (root : List Char) (fs : FS) (itemPath : List Char) :
    Except NodeErr (Response × FS) :=
  match validatePathL root itemPath with
  | .error m => .error (userErr m)
  | .ok safePath =>
    match fsLookup fs safePath with
    | none => .error (enoentErr ("stat".data) safePath)
    | some (.dir _ _) =>
      .ok (mkResp ("Deleted: ".data ++ itemPath),
        removeDirent (fsRemoveTree fs safePath) (dirnameL safePath) (basenameL safePath))
    | some (.file _ _) =>
      .ok (mkResp ("Deleted: ".data ++ itemPath),
        removeDirent (fsErase fs safePath) (dirnameL safePath) (basenameL safePath))

/-- `getFileInfo` (src/index.ts:368-391): validate, stat, and report the
info record with the caller's original path. -/
def getFileInfo (root : List Char) (fs : FS) (itemPath : List Char) :
    Except NodeErr (Response × FS) :=
  match validatePathL root itemPath with
  | .error m => .error (userErr m)
  | .ok safePath =>
    match fsLookup fs safePath with
    | none => .error (enoentErr ("stat".data) safePath)
    | some e => .ok (mkResp (renderInfo itemPath (statOf e)), fs)

/-! ## Dispatch boundary -/

/-- A JSON-ish argument value, enough to express present/missing and
correctly/incorrectly typed arguments. -/
inductive JVal where
  | str : List Char → JVal
  | num : Int → JVal
  | boolV : Bool → JVal
  | nullV : JVal
deriving DecidableEq

/-- The request's argument bag (`request.params.arguments`), possibly absent. -/
abbrev Args := Option (List (List Char × JVal))

/-- Lookup a key in an argument bag. -/
def lookupKV : List (List Char × JVal) → List Char → Option JVal
  | [], _ => none
  | (k0, v) :: t, k => if k0 = k then some v else lookupKV t k

/-- The `!args || typeof args.k !== 'string'` guard: the argument's string
value if the bag exists and the field holds a string. -/
def getStr (args : Args) (k : List Char) : Option (List Char) :=
  match args with
  | none => none
  | some l =>
    match lookupKV l k with
    | some (.str s) => some s
    | _ => none

/-- Operation name `list_directory`. -/
def nmLD : List Char := "list_directory".data
/-- Operation name `read_file`. -/
def nmRF : List Char := "read_file".data
/-- Operation name `write_file`. -/
def nmWF : List Char := "write_file".data
/-- Operation name `create_directory`. -/
def nmCD : List Char := "create_directory".data
/-- Operation name `delete_item`. -/
def nmDI : List Char := "delete_item".data
/-- Operation name `get_file_info`. -/
def nmGFI : List Char := "get_file_info".data

/-- Argument key `path`. -/
def keyPath : List Char := "path".data
/-- Argument key `content`. -/
def keyContent : List Char := "content".data

/-- Message for an empty tool name. -/
def msgNoName : List Char := "Tool name is missing or invalid.".data
/-- Missing-argument message for `list_directory`. -/
def msgMissLD : List Char := "Missing or invalid 'path' argument for list_directory".data
/-- Missing-argument message for `read_file`. -/
def msgMissRF : List Char := "Missing or invalid 'path' argument for read_file".data
/-- Missing-argument message for `write_file`. -/
def msgMissWF : List Char :=
  "Missing or invalid 'path' or 'content' argument for write_file".data
/-- Missing-argument message for `create_directory`. -/
def msgMissCD : List Char := "Missing or invalid 'path' argument for create_directory".data
/-- Missing-argument message for `delete_item`. -/
def msgMissDI : List Char := "Missing or invalid 'path' argument for delete_item".data
/-- Missing-argument message for `get_file_info`. -/
def msgMissGFI : List Char := "Missing or invalid 'path' argument for get_file_info".data
/-- Prefix of the unknown-tool message. -/
def msgUnknown : List Char := "Unknown tool: ".data

/-- The `try` body of the call-tool handler (src/index.ts:157-197): check the
name, switch on it, validate the argument shape, and run exactly one handler;
otherwise throw the matching `Error`. -/
def dispatchCore (root name : List Char) (args : Args) (fs : FS) :
    Except NodeErr (Response × FS) :=
  if name = [] then .error (userErr msgNoName)
  else if name = nmLD then
    match getStr args keyPath with
    | some p => listDirectory root fs p
    | none => .error (userErr msgMissLD)
  else if name = nmRF then
    match getStr args keyPath with
    | some p => readFile root fs p
    | none => .error (userErr msgMissRF)
  else if name = nmWF then
    match getStr args keyPath, getStr args keyContent with
    | some p, some c => writeFile root fs p c
    | _, _ => .error (userErr msgMissWF)
  else if name = nmCD then
    match getStr args keyPath with
    | some p => createDirectory root fs p
    | none => .error (userErr msgMissCD)
  else if name = nmDI then
    match getStr args keyPath with
    | some p => deleteItem root fs p
    | none => .error (userErr msgMissDI)
  else if name = nmGFI then
    match getStr args keyPath with
    | some p => getFileInfo root fs p
    | none => .error (userErr msgMissGFI)
  else .error (userErr (msgUnknown ++ name))

/-- `String(name || 'unknown tool')` in the catch block. -/
def shownName (name : List Char) : List Char :=
  if name = [] then "unknown tool".data else name

/-- The catch block's uniform error text
`Error processing tool '<name>': <message>`. -/
def errText (name msg : List Char) : List Char :=
  "Error processing tool '".data ++ shownName name ++ ("': ".data ++ msg)

/-- The whole call-tool request handler (src/index.ts:154-212): run the
dispatch, and render any thrown error as a normal single-text response,
leaving the filesystem as it was. -/
def handleCallTool (root name : List Char) (args : Args) (fs : FS) :
    Response × FS :=
  match dispatchCore root name args fs with
  | .ok r => r
  | .error e => (mkResp (errText name e.message), fs)

/-- The well-formed-call predicate of the dispatcher: the name is one of the
six operations and each required argument is present as a string. -/
def validShape (name : List Char) (args : Args) : Bool :=
  if name = nmWF then (getStr args keyPath).isSome && (getStr args keyContent).isSome
  else if name = nmLD ∨ name = nmRF ∨ name = nmCD ∨ name = nmDI ∨ name = nmGFI then
    (getStr args keyPath).isSome
  else false

end FileManager


namespace FileManager

/-! ## Basic lemmas about the string primitives -/

theorem lpre_iff (x y : List Char) : lpre x y = true ↔ x <+: y := by
  induction x generalizing y with
  | nil => simp [lpre]
  | cons a x ih =>
    cases y with
    | nil => simp [lpre]
    | cons b y => simp [lpre, ih, List.cons_prefix_cons]

theorem lpre_self_append (x y : List Char) : lpre x (x ++ y) = true :=
  (lpre_iff _ _).2 (List.prefix_append x y)

theorem lsub_mid (pre a post : List Char) : lsub a (pre ++ (a ++ post)) = true := by
  induction pre with
  | nil =>
    cases a with
    | nil => cases post <;> simp [lsub, lpre, List.isEmpty]
    | cons c t =>
      have h := lpre_self_append (c :: t) post
      simp only [List.cons_append] at h
      simp [lsub, h]
  | cons c pre ih => simp [lsub, ih]

theorem lastIs_cons_ne (a : Char) (t : List Char) (c : Char) (h : t ≠ []) :
    lastIs (a :: t) c = lastIs t c := by
  cases t with
  | nil => exact absurd rfl h
  | cons b t2 => rfl

theorem lastIs_append (x y : List Char) (c : Char) (h : y ≠ []) :
    lastIs (x ++ y) c = lastIs y c := by
  induction x with
  | nil => rfl
  | cons a x ih =>
    have hne : x ++ y ≠ [] := by
      intro hh
      exact h (List.append_eq_nil.1 hh).2
    rw [List.cons_append, lastIs_cons_ne a (x ++ y) c hne, ih]

theorem lastIs_false_of_not_mem (p : List Char) (c : Char) (h : c ∉ p) :
    lastIs p c = false := by
  induction p with
  | nil => rfl
  | cons a t ih =>
    cases t with
    | nil =>
      simp [lastIs]
      intro hh
      exact h (by simp [hh])
    | cons b t2 =>
      rw [lastIs_cons_ne a (b :: t2) c (by simp)]
      exact ih (fun hm => h (List.mem_cons_of_mem a hm))

/-! ## Lemmas about `splitSegs` -/

theorem splitSegs_ne_nil (cs : List Char) : splitSegs cs ≠ [] := by
  cases cs with
  | nil => simp [splitSegs]
  | cons c t =>
    by_cases h : c = sepC
    · simp [splitSegs, h]
    · simp only [splitSegs, if_neg h]
      cases hs : splitSegs t with
      | nil => simp
      | cons s rest => simp

theorem splitSegs_sep (cs : List Char) : splitSegs (sepC :: cs) = [] :: splitSegs cs := by
  simp [splitSegs]

theorem splitSegs_cons_ne (c : Char) (cs : List Char) (h : c ≠ sepC) (s : List Char)
    (rest : List (List Char)) (hs : splitSegs cs = s :: rest) :
    splitSegs (c :: cs) = (c :: s) :: rest := by
  simp only [splitSegs, if_neg h, hs]

theorem splitSegs_free_append (a x : List Char) (ha : sepC ∉ a) (s : List Char)
    (rest : List (List Char)) (hx : splitSegs x = s :: rest) :
    splitSegs (a ++ x) = (a ++ s) :: rest := by
  induction a with
  | nil => simpa using hx
  | cons c a ih =>
    have hc : c ≠ sepC := by
      intro hh
      exact ha (by simp [hh])
    have ha2 : sepC ∉ a := fun hm => ha (List.mem_cons_of_mem c hm)
    rw [List.cons_append,
      splitSegs_cons_ne c (a ++ x) hc (a ++ s) rest (ih ha2), List.cons_append]

theorem splitSegs_free (a : List Char) (ha : sepC ∉ a) : splitSegs a = [a] := by
  have h0 : splitSegs ([] : List Char) = [] :: [] := by simp [splitSegs]
  have := splitSegs_free_append a [] ha [] [] h0
  simpa using this

theorem mem_splitSegs_no_sep (cs : List Char) :
    ∀ s ∈ splitSegs cs, sepC ∉ s := by
  induction cs with
  | nil =>
    intro s hs
    simp [splitSegs] at hs
    simp [hs]
  | cons c t ih =>
    intro s hs
    by_cases h : c = sepC
    · rw [h, splitSegs_sep] at hs
      rcases List.mem_cons.1 hs with h1 | h1
      · simp [h1]
      · exact ih s h1
    · rcases hrec : splitSegs t with _ | ⟨s0, rest⟩
      · exact absurd hrec (splitSegs_ne_nil t)
      · rw [splitSegs_cons_ne c t h s0 rest hrec] at hs
        rcases List.mem_cons.1 hs with h1 | h1
        · subst h1
          intro hm
          rcases List.mem_cons.1 hm with h2 | h2
          · exact h h2.symm
          · exact ih s0 (by simp [hrec]) h2
        · exact ih s (by simp [hrec, h1])

/-! ## Lemmas about the segment stack -/

theorem step_skip (ab : Bool) (acc : List (List Char)) (s : List Char)
    (h : s = [] ∨ s = dotSeg) : step ab acc s = acc := by
  unfold step
  rw [if_pos h]

theorem step_push (ab : Bool) (acc : List (List Char)) (s : List Char)
    (h1 : s ≠ []) (h2 : s ≠ dotSeg) (h3 : s ≠ ddSeg) : step ab acc s = s :: acc := by
  unfold step
  rw [if_neg (by simp [h1, h2]), if_neg h3]

theorem foldl_step_good (ab : Bool) (segs : List (List Char))
    (hg : ∀ s ∈ segs, goodSeg s) :
    ∀ acc, segs.foldl (step ab) acc = segs.reverse ++ acc := by
  induction segs with
  | nil => intro acc; simp
  | cons s t ih =>
    intro acc
    have hs := hg s (by simp)
    rw [List.foldl_cons, step_push ab acc s hs.1 hs.2.1 hs.2.2.1,
      ih (fun x hx => hg x (List.mem_cons_of_mem s hx)) (s :: acc)]
    simp

theorem normStack_cons_nil (ab : Bool) (segs : List (List Char)) :
    normStack ab ([] :: segs) = normStack ab segs := by
  unfold normStack
  rw [List.foldl_cons, step_skip ab [] [] (Or.inl rfl)]

theorem normStack_append_nil (ab : Bool) (segs : List (List Char)) :
    normStack ab (segs ++ [[]]) = normStack ab segs := by
  unfold normStack
  rw [List.foldl_append, List.foldl_cons, step_skip _ _ [] (Or.inl rfl), List.foldl_nil]

theorem normStack_good (ab : Bool) (segs : List (List Char))
    (hg : ∀ s ∈ segs, goodSeg s) : normStack ab segs = segs := by
  unfold normStack
  rw [foldl_step_good ab segs hg []]
  simp

theorem foldl_step_false_good (segs : List (List Char))
    (h : ∀ s ∈ segs, sepC ∉ s) :
    ∀ acc, (∀ s ∈ acc, goodSeg s) → ∀ s ∈ segs.foldl (step false) acc, goodSeg s := by
  induction segs with
  | nil => intro acc hacc; exact hacc
  | cons a t ih =>
    intro acc hacc
    rw [List.foldl_cons]
    apply ih (fun s hs => h s (List.mem_cons_of_mem a hs))
    by_cases h1 : a = [] ∨ a = dotSeg
    · rw [step_skip _ _ _ h1]; exact hacc
    · by_cases h2 : a = ddSeg
      · subst h2
        cases acc with
        | nil =>
          have hstep : step false [] ddSeg = [] := by decide
          rw [hstep]
          simp
        | cons t0 rest =>
          have ht0 : goodSeg t0 := hacc t0 (by simp)
          have hdd : t0 ≠ ['.', '.'] := by simpa [ddSeg] using ht0.2.2.1
          have hstep : step false (t0 :: rest) ddSeg = rest := by
            simp [step, ddSeg, dotSeg, hdd]
          rw [hstep]
          exact fun s hs => hacc s (List.mem_cons_of_mem t0 hs)
      · push_neg at h1
        rw [step_push false acc a h1.1 h1.2 h2]
        intro s hs
        rcases List.mem_cons.1 hs with rfl | hs
        · exact ⟨h1.1, h1.2, h2, h s (by simp)⟩
        · exact hacc s hs

theorem normStack_false_good (segs : List (List Char))
    (h : ∀ s ∈ segs, sepC ∉ s) : ∀ s ∈ normStack false segs, goodSeg s := by
  intro s hs
  unfold normStack at hs
  exact foldl_step_false_good segs h [] (by simp) s (List.mem_reverse.1 hs)

/-! ## Lemmas about `flat`, `joinSegs` and `absOf` -/

theorem absOf_eq_flat (segs : List (List Char)) (h : segs ≠ []) :
    absOf segs = flat segs := by
  induction segs with
  | nil => exact absurd rfl h
  | cons a t ih =>
    cases t with
    | nil => simp [absOf, joinSegs, flat]
    | cons b r =>
      have h2 : sepC :: joinSegs (b :: r) = flat (b :: r) := ih (by simp)
      show sepC :: joinSegs (a :: b :: r) = flat (a :: b :: r)
      have hj : joinSegs (a :: b :: r) = a ++ sepC :: joinSegs (b :: r) := rfl
      have hf : flat (a :: b :: r) = sepC :: (a ++ flat (b :: r)) := rfl
      rw [hj, hf, ← h2]

theorem flat_ne_nil (a : List Char) (t : List (List Char)) : flat (a :: t) ≠ [] := by
  simp [flat]

theorem headIs_flat (a : List Char) (t : List (List Char)) :
    headIs (flat (a :: t)) sepC = true := by
  simp [flat, headIs]

theorem joinSegs_ne_nil (segs : List (List Char)) (h : segs ≠ [])
    (hg : ∀ s ∈ segs, goodSeg s) : joinSegs segs ≠ [] := by
  cases segs with
  | nil => exact absurd rfl h
  | cons a t =>
    cases t with
    | nil => exact (hg a (by simp)).1
    | cons b r =>
      show a ++ sepC :: joinSegs (b :: r) ≠ []
      simp

theorem lastIs_flat_false (segs : List (List Char)) (h : segs ≠ [])
    (hg : ∀ s ∈ segs, goodSeg s) : lastIs (flat segs) sepC = false := by
  induction segs with
  | nil => exact absurd rfl h
  | cons a t ih =>
    cases t with
    | nil =>
      have ha : goodSeg a := hg a (by simp)
      show lastIs (sepC :: (a ++ [])) sepC = false
      rw [List.append_nil, lastIs_cons_ne sepC a sepC ha.1]
      exact lastIs_false_of_not_mem a sepC ha.2.2.2
    | cons b r =>
      have hf : flat (b :: r) ≠ [] := flat_ne_nil b r
      show lastIs (sepC :: (a ++ flat (b :: r))) sepC = false
      have hne : a ++ flat (b :: r) ≠ [] := by
        intro hh
        exact hf (List.append_eq_nil.1 hh).2
      rw [lastIs_cons_ne _ _ _ hne, lastIs_append a _ sepC hf]
      exact ih (by simp) (fun s hs => hg s (List.mem_cons_of_mem a hs))

theorem splitSegs_flat_sep (segs : List (List Char)) (hg : ∀ s ∈ segs, goodSeg s)
    (t : List Char) :
    splitSegs (flat segs ++ sepC :: t) = [] :: (segs ++ splitSegs t) := by
  induction segs with
  | nil =>
    show splitSegs ([] ++ sepC :: t) = _
    rw [List.nil_append, splitSegs_sep, List.nil_append]
  | cons a r ih =>
    have ha := hg a (by simp)
    have hrec := ih (fun s hs => hg s (List.mem_cons_of_mem a hs))
    show splitSegs ((sepC :: (a ++ flat r)) ++ sepC :: t) = _
    rw [List.cons_append, splitSegs_sep, List.append_assoc,
      splitSegs_free_append a (flat r ++ sepC :: t) ha.2.2.2 [] (r ++ splitSegs t) hrec]
    simp

theorem splitSegs_flat (segs : List (List Char)) (h : segs ≠ [])
    (hg : ∀ s ∈ segs, goodSeg s) : splitSegs (flat segs) = [] :: segs := by
  induction segs with
  | nil => exact absurd rfl h
  | cons a t ih =>
    have ha := hg a (by simp)
    cases t with
    | nil =>
      show splitSegs (sepC :: (a ++ [])) = _
      rw [List.append_nil, splitSegs_sep, splitSegs_free a ha.2.2.2]
    | cons b r =>
      have hrec := ih (by simp) (fun s hs => hg s (List.mem_cons_of_mem a hs))
      show splitSegs (sepC :: (a ++ flat (b :: r))) = _
      rw [splitSegs_sep, splitSegs_free_append a (flat (b :: r)) ha.2.2.2 [] (b :: r) hrec]
      simp

theorem headIs_append (x y : List Char) (c : Char) (h : x ≠ []) :
    headIs (x ++ y) c = headIs x c := by
  cases x with
  | nil => exact absurd rfl h
  | cons a t => rfl

/-- A fully normalized absolute path is a fixed point of `path.normalize`. -/
theorem normalizeL_absOf (vsegs : List (List Char)) (hg : ∀ s ∈ vsegs, goodSeg s) :
    normalizeL (absOf vsegs) = absOf vsegs := by
  cases vsegs with
  | nil => decide
  | cons a t =>
    have hne : (a :: t) ≠ ([] : List (List Char)) := by simp
    have h1 : flat (a :: t) ≠ [] := flat_ne_nil a t
    have h2 : headIs (flat (a :: t)) sepC = true := headIs_flat a t
    have h3 : lastIs (flat (a :: t)) sepC = false := lastIs_flat_false _ hne hg
    have h4 : splitSegs (flat (a :: t)) = [] :: (a :: t) := splitSegs_flat _ hne hg
    have h5 : normStack false ([] :: a :: t) = a :: t := by
      rw [normStack_cons_nil, normStack_good false _ hg]
    have h6 : joinSegs (a :: t) ≠ [] := joinSegs_ne_nil _ hne hg
    calc normalizeL (absOf (a :: t)) = normalizeL (flat (a :: t)) := by
          rw [absOf_eq_flat _ hne]
    _ = absOf (a :: t) := by
          simp [normalizeL, h1, h2, h3, h4, h5, h6, absOf, absOf_eq_flat _ hne]

/-- `path.normalize(base + '/')` for a clean absolute base just keeps the
trailing separator. -/
theorem normalizeL_absOf_slash (rsegs : List (List Char)) (hne : rsegs ≠ [])
    (hg : ∀ s ∈ rsegs, goodSeg s) :
    normalizeL (absOf rsegs ++ [sepC]) = absOf rsegs ++ [sepC] := by
  have hf : absOf rsegs = flat rsegs := absOf_eq_flat _ hne
  have h1 : flat rsegs ++ [sepC] ≠ [] := by simp
  have h2 : headIs (flat rsegs ++ [sepC]) sepC = true := by
    cases rsegs with
    | nil => exact absurd rfl hne
    | cons a t => rw [headIs_append _ _ _ (flat_ne_nil a t)]; exact headIs_flat a t
  have h3 : lastIs (flat rsegs ++ [sepC]) sepC = true := by
    rw [lastIs_append _ [sepC] sepC (by simp)]
    simp [lastIs]
  have h4 : splitSegs (flat rsegs ++ [sepC]) = [] :: (rsegs ++ [[]]) := by
    have := splitSegs_flat_sep rsegs hg []
    simpa [splitSegs] using this
  have h5 : normStack false ([] :: (rsegs ++ [[]])) = rsegs := by
    rw [normStack_cons_nil, normStack_append_nil, normStack_good false _ hg]
  have h6 : joinSegs rsegs ≠ [] := joinSegs_ne_nil _ hne hg
  calc normalizeL (absOf rsegs ++ [sepC]) = normalizeL (flat rsegs ++ [sepC]) := by rw [hf]
  _ = absOf rsegs ++ [sepC] := by
      simp [normalizeL, h1, h2, h3, h4, h5, h6, absOf, hf]

theorem vp_eq_core (base input : List Char) :
    validatePathL base input = validateCore base input := by
  unfold validatePathL
  exact ite_self _

/-- The resolution against an absolute base is an absolute path whose
segments are all clean. -/
theorem resolveL_normal (base input : List Char) (hb : headIs base sepC = true) :
    ∃ vsegs, (∀ s ∈ vsegs, goodSeg s) ∧ resolveL base input = absOf vsegs := by
  have hbne : base ≠ [] := by
    intro h
    rw [h] at hb
    simp [headIs] at hb
  by_cases hi : headIs input sepC = true
  · refine ⟨normStack false (splitSegs input),
      normStack_false_good _ (mem_splitSegs_no_sep input), ?_⟩
    simp [resolveL, hi, absOf]
  · have hj : headIs (base ++ sepC :: input) sepC = true := by
      rw [headIs_append _ _ _ hbne]
      exact hb
    refine ⟨normStack false (splitSegs (base ++ sepC :: input)),
      normStack_false_good _ (mem_splitSegs_no_sep _), ?_⟩
    simp [resolveL, hi, hj, absOf]

theorem seg_prefix_eq (a : List Char) :
    ∀ b X Y : List Char, sepC ∉ a → sepC ∉ b → (Y = [] ∨ headIs Y sepC = true) →
    (a ++ sepC :: X) <+: (b ++ Y) → a = b ∧ sepC :: X <+: Y := by
  induction a with
  | nil =>
    intro b X Y _ hb _ h
    cases b with
    | nil => simp at h; exact ⟨rfl, h⟩
    | cons d b2 =>
      exfalso
      rw [List.nil_append, List.cons_append] at h
      have hd := (List.cons_prefix_cons.1 h).1
      exact hb (by simp [← hd])
  | cons c a2 ih =>
    intro b X Y ha hb hY h
    cases b with
    | nil =>
      exfalso
      rw [List.nil_append, List.cons_append] at h
      rcases hY with rfl | hY
      · simp at h
      · cases Y with
        | nil => simp [headIs] at hY
        | cons y0 Y2 =>
          have h1 := (List.cons_prefix_cons.1 h).1
          have h2 : y0 = sepC := by simpa [headIs] using hY
          exact ha (by simp [h1, h2])
    | cons d b2 =>
      rw [List.cons_append, List.cons_append] at h
      obtain ⟨rfl, h2⟩ := List.cons_prefix_cons.1 h
      have ha2 : sepC ∉ a2 := fun hm => ha (List.mem_cons_of_mem c hm)
      have hb2 : sepC ∉ b2 := fun hm => hb (List.mem_cons_of_mem c hm)
      obtain ⟨hab, h3⟩ := ih b2 X Y ha2 hb2 hY h2
      exact ⟨by rw [hab], h3⟩

theorem seg_append_eq (a : List Char) :
    ∀ b X Y : List Char, sepC ∉ a → sepC ∉ b →
    (X = [] ∨ headIs X sepC = true) → (Y = [] ∨ headIs Y sepC = true) →
    a ++ X = b ++ Y → a = b ∧ X = Y := by
  induction a with
  | nil =>
    intro b X Y _ hb hX _ h
    cases b with
    | nil => simpa using h
    | cons d b2 =>
      exfalso
      rw [List.nil_append, List.cons_append] at h
      rcases hX with rfl | hX
      · simp at h
      · rw [h] at hX
        have : d = sepC := by simpa [headIs] using hX
        exact hb (by simp [this])
  | cons c a2 ih =>
    intro b X Y ha hb hX hY h
    cases b with
    | nil =>
      exfalso
      rw [List.nil_append, List.cons_append] at h
      rcases hY with rfl | hY
      · simp at h
      · rw [← h] at hY
        have : c = sepC := by simpa [headIs] using hY
        exact ha (by simp [this])
    | cons d b2 =>
      rw [List.cons_append, List.cons_append] at h
      obtain ⟨rfl, h2⟩ := List.cons.inj h
      have ha2 : sepC ∉ a2 := fun hm => ha (List.mem_cons_of_mem c hm)
      have hb2 : sepC ∉ b2 := fun hm => hb (List.mem_cons_of_mem c hm)
      obtain ⟨hab, h3⟩ := ih b2 X Y ha2 hb2 hX hY h2
      exact ⟨by rw [hab], h3⟩

theorem flat_head_cases (B : List (List Char)) :
    flat B = [] ∨ headIs (flat B) sepC = true := by
  cases B with
  | nil => exact Or.inl rfl
  | cons x xs => exact Or.inr (headIs_flat x xs)

/-- Descent: if `flat A + '/'` is a string prefix of `flat B` (all segments
clean), then `B` extends `A` by at least one segment. -/
theorem flat_slash_descend (A : List (List Char)) :
    ∀ B, (∀ s ∈ A, goodSeg s) → (∀ s ∈ B, goodSeg s) →
    (flat A ++ [sepC]) <+: flat B → ∃ t2, t2 ≠ [] ∧ B = A ++ t2 := by
  induction A with
  | nil =>
    intro B _ _ h
    cases B with
    | nil => exact absurd h (by simp [flat])
    | cons b B2 => exact ⟨b :: B2, by simp, by simp⟩
  | cons a A2 ih =>
    intro B hA hB h
    cases B with
    | nil =>
      exfalso
      have := h.length_le
      simp [flat] at this
    | cons b B2 =>
      have ha := hA a (by simp)
      have hb := hB b (by simp)
      have h2 : (a ++ (flat A2 ++ [sepC])) <+: (b ++ flat B2) := by
        have hL : flat (a :: A2) ++ [sepC] = sepC :: (a ++ (flat A2 ++ [sepC])) := by
          simp [flat, List.append_assoc]
        have hR : flat (b :: B2) = sepC :: (b ++ flat B2) := rfl
        rw [hL, hR] at h
        exact (List.cons_prefix_cons.1 h).2
      have hZ : ∃ Z, flat A2 ++ [sepC] = sepC :: Z := by
        cases A2 with
        | nil => exact ⟨[], rfl⟩
        | cons x xs => exact ⟨(x ++ flat xs) ++ [sepC], by simp [flat, List.append_assoc]⟩
      obtain ⟨Z, hZeq⟩ := hZ
      rw [hZeq] at h2
      obtain ⟨hab, h3⟩ := seg_prefix_eq a b Z (flat B2) ha.2.2.2 hb.2.2.2
        (flat_head_cases B2) h2
      rw [← hZeq] at h3
      obtain ⟨t2, ht2, hB2eq⟩ := ih B2 (fun s hs => hA s (List.mem_cons_of_mem a hs))
        (fun s hs => hB s (List.mem_cons_of_mem b hs)) h3
      exact ⟨t2, ht2, by rw [← hab, hB2eq, List.cons_append]⟩

/-- `flat` is injective on clean segment lists. -/
theorem flat_inj (A : List (List Char)) :
    ∀ B, (∀ s ∈ A, goodSeg s) → (∀ s ∈ B, goodSeg s) → flat A = flat B → A = B := by
  induction A with
  | nil =>
    intro B _ _ h
    cases B with
    | nil => rfl
    | cons b B2 => exact absurd h.symm (by simp [flat])
  | cons a A2 ih =>
    intro B hA hB h
    cases B with
    | nil => exact absurd h (by simp [flat])
    | cons b B2 =>
      have ha := hA a (by simp)
      have hb := hB b (by simp)
      have h2 : a ++ flat A2 = b ++ flat B2 := by
        have : sepC :: (a ++ flat A2) = sepC :: (b ++ flat B2) := h
        exact (List.cons.inj this).2
      obtain ⟨hab, h3⟩ := seg_append_eq a b (flat A2) (flat B2) ha.2.2.2 hb.2.2.2
        (flat_head_cases A2) (flat_head_cases B2) h2
      rw [hab, ih B2 (fun s hs => hA s (List.mem_cons_of_mem a hs))
        (fun s hs => hB s (List.mem_cons_of_mem b hs)) h3]

theorem splitSegs_append_sep (x : List Char) :
    splitSegs (x ++ [sepC]) = splitSegs x ++ [[]] := by
  induction x with
  | nil => simp [splitSegs]
  | cons c t ih =>
    by_cases hc : c = sepC
    · subst hc
      rw [List.cons_append, splitSegs_sep, splitSegs_sep, ih, List.cons_append]
    · rcases hs : splitSegs t with _ | ⟨s, rest⟩
      · exact absurd hs (splitSegs_ne_nil t)
      · have h2 : splitSegs (t ++ [sepC]) = s :: (rest ++ [[]]) := by
          rw [ih, hs, List.cons_append]
        rw [List.cons_append, splitSegs_cons_ne c (t ++ [sepC]) hc s (rest ++ [[]]) h2,
          splitSegs_cons_ne c t hc s rest hs, List.cons_append]

theorem normStack_split_sep (ab : Bool) (x : List Char) :
    normStack ab (splitSegs (x ++ [sepC])) = normStack ab (splitSegs x) := by
  rw [splitSegs_append_sep, normStack_append_nil]

theorem resolveL_abs_input (base q : List Char) (hq : headIs q sepC = true) :
    resolveL base q = sepC :: joinSegs (normStack false (splitSegs q)) := by
  simp [resolveL, hq]

theorem resolveL_rel_abs (base q : List Char) (hq : ¬ headIs q sepC = true)
    (hb : headIs (base ++ sepC :: q) sepC = true) :
    resolveL base q = sepC :: joinSegs (normStack false (splitSegs (base ++ sepC :: q))) := by
  simp [resolveL, hq, hb]

theorem resolveL_rel_rel (base q : List Char) (hq : ¬ headIs q sepC = true)
    (hb : ¬ headIs (base ++ sepC :: q) sepC = true) :
    resolveL base q =
      (if joinSegs (normStack true (splitSegs (base ++ sepC :: q))) = [] then dotSeg
       else joinSegs (normStack true (splitSegs (base ++ sepC :: q)))) := by
  simp [resolveL, hq, hb]

theorem headIs_join_indep (base X : List Char) (c : Char) :
    headIs (base ++ sepC :: X) c = headIs (base ++ [sepC]) c := by
  cases base with
  | nil => rfl
  | cons a t => rfl

/-- A trailing separator on a nonempty request path does not change its
resolution. -/
theorem resolveL_trailing_sep (base p : List Char) (hp : p ≠ []) :
    resolveL base (p ++ [sepC]) = resolveL base p := by
  have hassoc : base ++ sepC :: (p ++ [sepC]) = (base ++ sepC :: p) ++ [sepC] := by
    simp
  by_cases hi : headIs p sepC = true
  · have h1 : headIs (p ++ [sepC]) sepC = true := by
      rw [headIs_append p [sepC] sepC hp]
      exact hi
    rw [resolveL_abs_input base _ h1, resolveL_abs_input base p hi, normStack_split_sep]
  · have h1 : ¬ headIs (p ++ [sepC]) sepC = true := by
      rw [headIs_append p [sepC] sepC hp]
      exact hi
    by_cases hb : headIs (base ++ sepC :: p) sepC = true
    · have hb2 : headIs (base ++ sepC :: (p ++ [sepC])) sepC = true := by
        rw [headIs_join_indep]
        rw [headIs_join_indep] at hb
        exact hb
      rw [resolveL_rel_abs base _ h1 hb2, resolveL_rel_abs base p hi hb, hassoc,
        normStack_split_sep]
    · have hb2 : ¬ headIs (base ++ sepC :: (p ++ [sepC])) sepC = true := by
        rw [headIs_join_indep]
        rw [headIs_join_indep] at hb
        exact hb
      rw [resolveL_rel_rel base _ h1 hb2, resolveL_rel_rel base p hi hb, hassoc,
        normStack_split_sep]

/-! ## Claim theorems: path validation -/

/-- C1: for every clean absolute root and every untrusted input path,
`validatePath` either returns an absolute path whose clean segment list is
the root's segment list (exactly the root) or strictly extends it (strictly
inside the root, with no `..` surviving), or fails with the access-denied
error; it never returns a path outside the root, regardless of `..`
segments, absolute-looking prefixes, or redundant separators in the input. -/
theorem c1_containment (rsegs : List (List Char)) (input : List Char)
    (hg : ∀ s ∈ rsegs, goodSeg s) :
    (∀ v, validatePathL (absOf rsegs) input = .ok v →
      ∃ vsegs, (∀ s ∈ vsegs, goodSeg s) ∧ v = absOf vsegs ∧
        (vsegs = rsegs ∨ ∃ t2, t2 ≠ [] ∧ vsegs = rsegs ++ t2)) ∧
    (∀ m, validatePathL (absOf rsegs) input = .error m →
      m = adMsg1 ++ input ++ adMsg2) := by
  have hroot : headIs (absOf rsegs) sepC = true := by simp [absOf, headIs]
  obtain ⟨vsegs, hvg, hres⟩ := resolveL_normal (absOf rsegs) input hroot
  constructor
  · intro v hv
    rw [vp_eq_core] at hv
    simp only [validateCore] at hv
    split at hv
    · exact absurd hv (by simp)
    · next hcond =>
      have hv2 : v = absOf vsegs := by
        rw [← hres]
        exact (Except.ok.inj hv).symm
      refine ⟨vsegs, hvg, hv2, ?_⟩
      have hacc : lpre (normalizeL (absOf rsegs ++ [sepC]))
            (normalizeL (resolveL (absOf rsegs) input)) = true ∨
          normalizeL (resolveL (absOf rsegs) input) = normalizeL (absOf rsegs) := by
        by_cases hA : lpre (normalizeL (absOf rsegs ++ [sepC]))
            (normalizeL (resolveL (absOf rsegs) input)) = true
        · exact Or.inl hA
        · right
          by_contra hB
          exact hcond ⟨by simpa using hA, hB⟩
      cases rsegs with
      | nil =>
        cases vsegs with
        | nil => exact Or.inl rfl
        | cons v0 vs => exact Or.inr ⟨v0 :: vs, by simp, by simp⟩
      | cons r0 rs =>
        have hrne : (r0 :: rs) ≠ ([] : List (List Char)) := by simp
        have hAeq : normalizeL (absOf (r0 :: rs)) = absOf (r0 :: rs) :=
          normalizeL_absOf _ hg
        have hBeq : normalizeL (absOf (r0 :: rs) ++ [sepC]) = absOf (r0 :: rs) ++ [sepC] :=
          normalizeL_absOf_slash _ hrne hg
        have hVeq : normalizeL (resolveL (absOf (r0 :: rs)) input) = absOf vsegs := by
          rw [hres]
          exact normalizeL_absOf _ hvg
        rw [hBeq, hVeq, hAeq] at hacc
        rcases hacc with hpre | heq
        · cases vsegs with
          | nil =>
            exfalso
            have hle := ((lpre_iff _ _).1 hpre).length_le
            rw [absOf_eq_flat _ hrne] at hle
            simp [flat, absOf, joinSegs] at hle
          | cons v0 vs =>
            have hvne : (v0 :: vs) ≠ ([] : List (List Char)) := by simp
            rw [absOf_eq_flat _ hrne, absOf_eq_flat _ hvne] at hpre
            have hpre2 : (flat (r0 :: rs) ++ [sepC]) <+: flat (v0 :: vs) :=
              (lpre_iff _ _).1 hpre
            exact Or.inr (flat_slash_descend _ _ hg hvg hpre2)
        · left
          cases vsegs with
          | nil =>
            exfalso
            rw [absOf_eq_flat _ hrne] at heq
            have : joinSegs ([] : List (List Char)) = r0 ++ flat rs := by
              have := (List.cons.inj (show sepC :: joinSegs ([] : List (List Char)) =
                sepC :: (r0 ++ flat rs) from heq)).2
              exact this
            have hr0 : r0 ≠ [] := (hg r0 (by simp)).1
            cases hr0e : r0 with
            | nil => exact hr0 hr0e
            | cons c cr =>
              rw [hr0e] at this
              simp [joinSegs] at this
          | cons v0 vs =>
            have hvne : (v0 :: vs) ≠ ([] : List (List Char)) := by simp
            rw [absOf_eq_flat _ hrne, absOf_eq_flat _ hvne] at heq
            exact flat_inj _ _ hvg hg heq
  · intro m hm
    rw [vp_eq_core] at hm
    simp only [validateCore] at hm
    split at hm
    · exact (Except.error.inj hm).symm
    · exact absurd hm (by simp)

/-- C1 witness: root `/sandbox`, input `docs/a.txt` is accepted and lands
strictly inside the root. -/
theorem c1_containment_witness :
    ∃ vsegs, (∀ s ∈ vsegs, goodSeg s) ∧
      ("/sandbox/docs/a.txt".data : List Char) = absOf vsegs ∧
      (vsegs = ["sandbox".data] ∨ ∃ t2, t2 ≠ [] ∧ vsegs = ["sandbox".data] ++ t2) :=
  (c1_containment ["sandbox".data] ("docs/a.txt".data) (by decide)).1
    ("/sandbox/docs/a.txt".data) (by rfl)

/-- C2 counterexample: with root `/a`, the absolute-looking input `/b` is
resolved by `path.resolve` to `/b` itself, not to the join-with-root
`/a/b`; validation therefore rejects it instead of reinterpreting it
relative to the root. -/
theorem c2_counterexample :
    resolveL ("/a".data) ("/b".data) = "/b".data ∧
    joinL ("/a".data) ("/b".data) = "/a/b".data ∧
    normalizeL ("/a".data ++ sepC :: "/b".data) = "/a/b".data ∧
    resolveL ("/a".data) ("/b".data) ≠ normalizeL ("/a".data ++ sepC :: "/b".data) ∧
    validatePathL ("/a".data) ("/b".data) = .error (adMsg1 ++ "/b".data ++ adMsg2) := by
  refine ⟨by decide, by decide, by decide, by decide, by rfl⟩

/-- C2 (amended): an absolute-looking input is not joined with the root at
all — `path.resolve` treats it as an independent absolute path, so its
resolution is the same under every base; containment is then enforced only
by the subsequent prefix check. -/
theorem c2_abs_input_ignores_base (base1 base2 input : List Char)
    (h : headIs input sepC = true) :
    resolveL base1 input = resolveL base2 input := by
  rw [resolveL_abs_input base1 input h, resolveL_abs_input base2 input h]

/-- C2 amended-claim witness at `/etc/passwd` under two different bases. -/
theorem c2_abs_input_ignores_base_witness :
    resolveL ("/a".data) ("/etc/passwd".data) = resolveL ("/x/y".data) ("/etc/passwd".data) :=
  c2_abs_input_ignores_base ("/a".data) ("/x/y".data) ("/etc/passwd".data) (by decide)

/-- C3: for a clean nonempty absolute root, the accept/reject outcome of
`validatePath` is exactly the spec's normalize-then-prefix-compare rule
(accept iff the normalized resolution equals the normalized root or begins
with the normalized root followed by a separator); and the source's
`includes("..")` branch has no effect — `validatePath` coincides with its
own body without that branch on every input. -/
theorem c3_refinement (rsegs : List (List Char)) (input : List Char)
    (hg : ∀ s ∈ rsegs, goodSeg s) (hne : rsegs ≠ []) :
    isOkB (validatePathL (absOf rsegs) input) = specAccepts (absOf rsegs) input ∧
    validatePathL (absOf rsegs) input = validateCore (absOf rsegs) input := by
  refine ⟨?_, vp_eq_core _ _⟩
  rw [vp_eq_core]
  have hA : normalizeL (absOf rsegs) = absOf rsegs := normalizeL_absOf rsegs hg
  have hB : normalizeL (absOf rsegs ++ [sepC]) = absOf rsegs ++ [sepC] :=
    normalizeL_absOf_slash rsegs hne hg
  simp only [validateCore, specAccepts, hA, hB]
  by_cases h1 : lpre (absOf rsegs ++ [sepC]) (normalizeL (resolveL (absOf rsegs) input)) = true
  · have hc : ¬ (lpre (absOf rsegs ++ [sepC])
        (normalizeL (resolveL (absOf rsegs) input)) = false ∧
        normalizeL (resolveL (absOf rsegs) input) ≠ absOf rsegs) := by
      intro hc
      rw [h1] at hc
      exact absurd hc.1 (by simp)
    rw [if_neg hc]
    simp [isOkB, h1]
  · have h1f : lpre (absOf rsegs ++ [sepC])
        (normalizeL (resolveL (absOf rsegs) input)) = false := by
      simpa using h1
    by_cases h2 : normalizeL (resolveL (absOf rsegs) input) = absOf rsegs
    · have hc : ¬ (lpre (absOf rsegs ++ [sepC])
          (normalizeL (resolveL (absOf rsegs) input)) = false ∧
          normalizeL (resolveL (absOf rsegs) input) ≠ absOf rsegs) := fun hc => hc.2 h2
      rw [if_neg hc]
      simp [isOkB, h2]
    · rw [if_pos ⟨h1f, h2⟩]
      simp [isOkB, h1f, h2]

/-- C3 witness: at root `/sandbox`, the code's outcome matches the spec rule
on a traversal input containing `..`. -/
theorem c3_refinement_witness :
    (isOkB (validatePathL (absOf ["sandbox".data]) ("../etc".data)) =
      specAccepts (absOf ["sandbox".data]) ("../etc".data)) ∧
    validatePathL (absOf ["sandbox".data]) ("../etc".data) =
      validateCore (absOf ["sandbox".data]) ("../etc".data) :=
  c3_refinement ["sandbox".data] ("../etc".data) (by decide) (by decide)

/-- C9: any input whose resolution against the configured root is exactly
the root (for example the empty string, `"."`, or `"x/.."`) passes
validation and the root itself is returned; and appending a trailing
separator to a nonempty input never changes its resolution. -/
theorem c9_root_accept (root p : List Char) :
    (resolveL root p = root → validatePathL root p = .ok root) ∧
    (p ≠ [] → resolveL root (p ++ [sepC]) = resolveL root p) := by
  constructor
  · intro h
    rw [vp_eq_core]
    simp only [validateCore, h]
    rw [if_neg]
    intro hc
    exact hc.2 rfl
  · intro hp
    exact resolveL_trailing_sep root p hp

/-- C9 witness: under root `/sandbox`, the empty string, `"."` and `"x/.."`
all resolve to the root and are accepted, and `"docs" + "/"` resolves as
`"docs"` does. -/
theorem c9_root_accept_witness :
    validatePathL ("/sandbox".data) ("".data) = .ok ("/sandbox".data) ∧
    validatePathL ("/sandbox".data) (".".data) = .ok ("/sandbox".data) ∧
    validatePathL ("/sandbox".data) ("x/..".data) = .ok ("/sandbox".data) ∧
    resolveL ("/sandbox".data) ("docs".data ++ [sepC]) = resolveL ("/sandbox".data) ("docs".data) :=
  ⟨(c9_root_accept ("/sandbox".data) ("".data)).1 (by rfl),
   (c9_root_accept ("/sandbox".data) (".".data)).1 (by rfl),
   (c9_root_accept ("/sandbox".data) ("x/..".data)).1 (by rfl),
   (c9_root_accept ("/sandbox".data) ("docs".data)).2 (by decide)⟩

/-! ## Lemmas about the filesystem model -/

theorem fsInsertE_lookup_self (l : List (List Char × Entry)) (k : List Char) (e : Entry) :
    fsLookupE (fsInsertE l k e) k = some e := by
  induction l with
  | nil => simp [fsInsertE, fsLookupE]
  | cons kv t ih =>
    obtain ⟨k0, e0⟩ := kv
    by_cases h : k0 = k
    · simp [fsInsertE, h, fsLookupE]
    · simp [fsInsertE, h, fsLookupE, ih]

theorem fsInsert_lookup_self (fs : FS) (k : List Char) (e : Entry) :
    fsLookup (fsInsert fs k e) k = some e := by
  simp [fsLookup, fsInsert, fsInsertE_lookup_self]

theorem addDirentE_lookup_ne (l : List (List Char × Entry)) (parent : List Char)
    (d : Dirent) (k : List Char) (h : ¬ k = parent) :
    fsLookupE (addDirentE l parent d) k = fsLookupE l k := by
  induction l with
  | nil => rfl
  | cons kv t ih =>
    obtain ⟨k0, e0⟩ := kv
    by_cases h0 : k0 = parent
    · subst h0
      have hne : ¬ k0 = k := fun hh => h hh.symm
      simp [addDirentE, fsLookupE, hne]
    · simp [addDirentE, h0, fsLookupE, ih]

theorem addDirent_lookup_ne (fs : FS) (parent : List Char) (d : Dirent)
    (k : List Char) (h : ¬ k = parent) :
    fsLookup (addDirent fs parent d) k = fsLookup fs k := by
  simp [fsLookup, addDirent, addDirentE_lookup_ne _ _ _ _ h]

/-! ## Claim theorems: handlers -/

/-- C6: when path validation rejects a request path, every handler fails
with exactly that access-denied error for every filesystem state — the
result does not depend on the filesystem and no handler returns a new
state — and at the dispatch boundary the response is the rendered error
with the filesystem unchanged. -/
theorem c6_validation_blocks (root p m content : List Char)
    (h : validatePathL root p = .error m) :
    (∀ fs, listDirectory root fs p = .error (userErr m)) ∧
    (∀ fs, readFile root fs p = .error (userErr m)) ∧
    (∀ fs, writeFile root fs p content = .error (userErr m)) ∧
    (∀ fs, createDirectory root fs p = .error (userErr m)) ∧
    (∀ fs, deleteItem root fs p = .error (userErr m)) ∧
    (∀ fs, getFileInfo root fs p = .error (userErr m)) ∧
    (∀ fs args, getStr args keyPath = some p →
      handleCallTool root nmRF args fs = (mkResp (errText nmRF m), fs)) := by
  refine ⟨fun fs => by simp [listDirectory, h], fun fs => by simp [readFile, h],
    fun fs => by simp [writeFile, h], fun fs => by simp [createDirectory, h],
    fun fs => by simp [deleteItem, h], fun fs => by simp [getFileInfo, h],
    fun fs args hp => ?_⟩
  have hdc : dispatchCore root nmRF args fs = .error (userErr m) := by
    simp only [dispatchCore, hp]
    simp [readFile, h]
    rw [if_neg (by decide), if_neg (by decide)]
  simp [handleCallTool, hdc, userErr]

/-- C6 witness: root `/r`, the rejected path `..` produces the access-denied
error from every handler and an unchanged filesystem at the boundary. -/
theorem c6_validation_blocks_witness :
    listDirectory ("/r".data) ⟨[], 0⟩ ("..".data) =
      .error (userErr (adMsg1 ++ "..".data ++ adMsg2)) ∧
    writeFile ("/r".data) ⟨[], 0⟩ ("..".data) ("hi".data) =
      .error (userErr (adMsg1 ++ "..".data ++ adMsg2)) ∧
    handleCallTool ("/r".data) nmRF (some [(keyPath, JVal.str ("..".data))]) ⟨[], 0⟩ =
      (mkResp (errText nmRF (adMsg1 ++ "..".data ++ adMsg2)), ⟨[], 0⟩) :=
  have h := c6_validation_blocks ("/r".data) ("..".data)
    (adMsg1 ++ "..".data ++ adMsg2) ("hi".data) (by rfl)
  ⟨h.1 ⟨[], 0⟩, h.2.2.1 ⟨[], 0⟩, h.2.2.2.2.2.2 ⟨[], 0⟩ _ (by rfl)⟩

/-- C7: for any content and any path accepted by validation whose parent
directory exists and which does not name an existing directory,
`writeFile` succeeds and a subsequent `readFile` of the same request path
returns exactly the written content. -/
theorem c7_roundtrip (root : List Char) (fs : FS) (p c sp : List Char)
    (hv : validatePathL root p = .ok sp)
    (hparent : ∃ ch mm, fsLookup fs (dirnameL sp) = some (.dir ch mm))
    (hnotdir : ∀ ch mm, fsLookup fs sp ≠ some (.dir ch mm)) :
    ∃ fs2, writeFile root fs p c =
        .ok (mkResp ("File written successfully: ".data ++ p), fs2) ∧
      readFile root fs2 p = .ok (mkResp c, fs2) := by
  obtain ⟨ch, mm, hp⟩ := hparent
  have hp' : fsLookupE fs.entries (dirnameL sp) = some (.dir ch mm) := hp
  have hspne : ¬ sp = dirnameL sp := by
    intro he
    rw [← he] at hp
    exact hnotdir ch mm hp
  cases hsp : fsLookupE fs.entries sp with
  | none =>
    refine ⟨addDirent (fsInsert fs sp (.file c (metaAt fs.clock)))
      (dirnameL sp) ⟨basenameL sp, false⟩, ?_, ?_⟩
    · simp [writeFile, hv, hp', hsp]
    · have hl : fsLookup (addDirent (fsInsert fs sp (.file c (metaAt fs.clock)))
          (dirnameL sp) ⟨basenameL sp, false⟩) sp = some (.file c (metaAt fs.clock)) := by
        rw [addDirent_lookup_ne _ _ _ _ hspne]
        exact fsInsert_lookup_self fs sp _
      simp [readFile, hv, hl]
  | some e =>
    cases e with
    | dir ch2 m2 => exact absurd hsp (hnotdir ch2 m2)
    | file c0 m0 =>
      refine ⟨fsInsert fs sp (.file c (metaAt fs.clock)), ?_, ?_⟩
      · simp [writeFile, hv, hp', hsp]
      · simp [readFile, hv, fsInsert_lookup_self]

/-- C7 witness: under root `/r` with an empty root directory, writing
`hello` to `a.txt` and reading `a.txt` back returns `hello`. -/
theorem c7_roundtrip_witness :
    ∃ fs2, writeFile ("/r".data) ⟨[("/r".data, Entry.dir [] ⟨0, 0, 0, 0, 493⟩)], 5⟩
        ("a.txt".data) ("hello".data) =
        .ok (mkResp ("File written successfully: ".data ++ "a.txt".data), fs2) ∧
      readFile ("/r".data) fs2 ("a.txt".data) = .ok (mkResp ("hello".data), fs2) :=
  c7_roundtrip ("/r".data) ⟨[("/r".data, Entry.dir [] ⟨0, 0, 0, 0, 493⟩)], 5⟩
    ("a.txt".data) ("hello".data) ("/r/a.txt".data) (by rfl)
    ⟨[], ⟨0, 0, 0, 0, 493⟩, by rfl⟩
    (by intro ch mm hcon; simp [fsLookup, fsLookupE] at hcon)

/-- C8: on a validated directory path, a failing stat on an individual
enumerated child does not fail the call: `listDirectory` still succeeds,
the failing child appears as a degraded row carrying the error marker, and
every child whose stat succeeds appears as a normal row. -/
theorem c8_stat_degrade (root : List Char) (fs : FS) (p sp : List Char)
    (children : List Dirent) (mm : FileMeta) (d : Dirent)
    (hv : validatePathL root p = .ok sp)
    (hdir : fsLookup fs sp = some (.dir children mm))
    (hd : d ∈ children)
    (hfail : fsLookup fs (joinL sp d.name) = none) :
    listDirectory root fs p =
      .ok (mkResp (renderListing p (children.map (entryFor fs sp))), fs) ∧
    ListedEntry.degraded d.name (typeStr d.isDir) statFailMsg ∈
      children.map (entryFor fs sp) ∧
    (∀ d2 ∈ children, ∀ e, fsLookup fs (joinL sp d2.name) = some e →
      ListedEntry.ok d2.name (typeStr d2.isDir) (statOf e).size (isoOf (statOf e).mtimeMs) ∈
        children.map (entryFor fs sp)) := by
  refine ⟨by simp [listDirectory, hv, hdir], ?_, ?_⟩
  · have he : entryFor fs sp d = .degraded d.name (typeStr d.isDir) statFailMsg := by
      simp [entryFor, hfail]
    rw [← he]
    exact List.mem_map_of_mem _ hd
  · intro d2 hd2 e he2
    have he : entryFor fs sp d2 =
        .ok d2.name (typeStr d2.isDir) (statOf e).size (isoOf (statOf e).mtimeMs) := by
      simp [entryFor, he2]
    rw [← he]
    exact List.mem_map_of_mem _ hd2

/-- C8 witness: root `/r` lists children `a` (dangling, stat fails) and `b`
(a real file); the call succeeds and `a` shows up as a degraded row. -/
theorem c8_stat_degrade_witness :
    listDirectory ("/r".data)
        ⟨[("/r".data, Entry.dir [⟨"a".data, false⟩, ⟨"b".data, false⟩] ⟨0, 0, 0, 0, 420⟩),
          ("/r/b".data, Entry.file ("x".data) ⟨0, 7, 7, 7, 420⟩)], 9⟩ (".".data) =
      .ok (mkResp (renderListing (".".data)
        ([⟨"a".data, false⟩, ⟨"b".data, false⟩].map
          (entryFor ⟨[("/r".data, Entry.dir [⟨"a".data, false⟩, ⟨"b".data, false⟩] ⟨0, 0, 0, 0, 420⟩),
            ("/r/b".data, Entry.file ("x".data) ⟨0, 7, 7, 7, 420⟩)], 9⟩ ("/r".data)))),
        ⟨[("/r".data, Entry.dir [⟨"a".data, false⟩, ⟨"b".data, false⟩] ⟨0, 0, 0, 0, 420⟩),
          ("/r/b".data, Entry.file ("x".data) ⟨0, 7, 7, 7, 420⟩)], 9⟩) ∧
    ListedEntry.degraded ("a".data) (typeStr false) statFailMsg ∈
      ([⟨"a".data, false⟩, ⟨"b".data, false⟩].map
        (entryFor ⟨[("/r".data, Entry.dir [⟨"a".data, false⟩, ⟨"b".data, false⟩] ⟨0, 0, 0, 0, 420⟩),
          ("/r/b".data, Entry.file ("x".data) ⟨0, 7, 7, 7, 420⟩)], 9⟩ ("/r".data))) :=
  have h := c8_stat_degrade ("/r".data)
    ⟨[("/r".data, Entry.dir [⟨"a".data, false⟩, ⟨"b".data, false⟩] ⟨0, 0, 0, 0, 420⟩),
      ("/r/b".data, Entry.file ("x".data) ⟨0, 7, 7, 7, 420⟩)], 9⟩
    (".".data) ("/r".data) [⟨"a".data, false⟩, ⟨"b".data, false⟩] ⟨0, 0, 0, 0, 420⟩
    ⟨"a".data, false⟩ (by rfl) (by rfl) (by decide) (by rfl)
  ⟨h.1, h.2.1⟩

/-- C10: a degraded listing row (one whose per-child stat failed) still
reports the child's name and its kind as taken from the directory
enumeration itself, together with the error marker, and it is not a normal
row — the degraded constructor carries no size and no modification
timestamp. -/
theorem c10_degraded_shape (fs : FS) (sp : List Char) (d : Dirent)
    (hfail : fsLookup fs (joinL sp d.name) = none) :
    entryFor fs sp d = .degraded d.name (typeStr d.isDir) statFailMsg ∧
    (∀ n ty sz mo, entryFor fs sp d ≠ ListedEntry.ok n ty sz mo) := by
  have h : entryFor fs sp d = .degraded d.name (typeStr d.isDir) statFailMsg := by
    simp [entryFor, hfail]
  refine ⟨h, fun n ty sz mo hc => ?_⟩
  rw [h] at hc
  exact ListedEntry.noConfusion hc

/-- C10 witness: the dangling child `a` of `/r` yields exactly the degraded
row with its dirent-reported kind. -/
theorem c10_degraded_shape_witness :
    entryFor ⟨[("/r".data, Entry.dir [⟨"a".data, true⟩] ⟨0, 0, 0, 0, 420⟩)], 0⟩
        ("/r".data) ⟨"a".data, true⟩ =
      ListedEntry.degraded ("a".data) (typeStr true) statFailMsg :=
  (c10_degraded_shape ⟨[("/r".data, Entry.dir [⟨"a".data, true⟩] ⟨0, 0, 0, 0, 420⟩)], 0⟩
    ("/r".data) ⟨"a".data, true⟩ (by rfl)).1

/-! ## Success responses always carry exactly one text payload -/

theorem listDirectory_ok_shape {root : List Char} {fs : FS} {p : List Char}
    {r : Response} {fs2 : FS} (h : listDirectory root fs p = .ok (r, fs2)) :
    ∃ t, r = mkResp t := by
  unfold listDirectory at h
  split at h
  · exact absurd h (by simp)
  · split at h
    · exact absurd h (by simp)
    · exact absurd h (by simp)
    · exact ⟨_, (congrArg Prod.fst (Except.ok.inj h)).symm⟩

theorem readFile_ok_shape {root : List Char} {fs : FS} {p : List Char}
    {r : Response} {fs2 : FS} (h : readFile root fs p = .ok (r, fs2)) :
    ∃ t, r = mkResp t := by
  unfold readFile at h
  split at h
  · exact absurd h (by simp)
  · split at h
    · exact absurd h (by simp)
    · exact absurd h (by simp)
    · exact ⟨_, (congrArg Prod.fst (Except.ok.inj h)).symm⟩

theorem writeFile_ok_shape {root : List Char} {fs : FS} {p c : List Char}
    {r : Response} {fs2 : FS} (h : writeFile root fs p c = .ok (r, fs2)) :
    ∃ t, r = mkResp t := by
  unfold writeFile at h
  repeat' split at h
  all_goals
    first
    | exact ⟨_, (congrArg Prod.fst (Except.ok.inj h)).symm⟩
    | exact absurd h (by simp)

theorem createDirectory_ok_shape {root : List Char} {fs : FS} {p : List Char}
    {r : Response} {fs2 : FS} (h : createDirectory root fs p = .ok (r, fs2)) :
    ∃ t, r = mkResp t := by
  unfold createDirectory at h
  split at h
  · exact absurd h (by simp)
  · split at h
    · exact absurd h (by simp)
    · exact ⟨_, (congrArg Prod.fst (Except.ok.inj h)).symm⟩

theorem deleteItem_ok_shape {root : List Char} {fs : FS} {p : List Char}
    {r : Response} {fs2 : FS} (h : deleteItem root fs p = .ok (r, fs2)) :
    ∃ t, r = mkResp t := by
  unfold deleteItem at h
  split at h
  · exact absurd h (by simp)
  · split at h
    · exact absurd h (by simp)
    · exact ⟨_, (congrArg Prod.fst (Except.ok.inj h)).symm⟩
    · exact ⟨_, (congrArg Prod.fst (Except.ok.inj h)).symm⟩

theorem getFileInfo_ok_shape {root : List Char} {fs : FS} {p : List Char}
    {r : Response} {fs2 : FS} (h : getFileInfo root fs p = .ok (r, fs2)) :
    ∃ t, r = mkResp t := by
  unfold getFileInfo at h
  split at h
  · exact absurd h (by simp)
  · split at h
    · exact absurd h (by simp)
    · exact ⟨_, (congrArg Prod.fst (Except.ok.inj h)).symm⟩

theorem dispatchCore_ok_shape {root name : List Char} {args : Args} {fs : FS}
    {r : Response} {fs2 : FS} (h : dispatchCore root name args fs = .ok (r, fs2)) :
    ∃ t, r = mkResp t := by
  unfold dispatchCore at h
  repeat' split at h
  all_goals
    first
    | exact absurd h (by simp)
    | exact listDirectory_ok_shape h
    | exact readFile_ok_shape h
    | exact writeFile_ok_shape h
    | exact createDirectory_ok_shape h
    | exact deleteItem_ok_shape h
    | exact getFileInfo_ok_shape h

/-- C4 counterexample: an unknown-operation call that carries a perfectly
good `path` argument (`a.txt`) is answered with an error text that names
the operation but does not mention the caller's path anywhere, refuting
"names the failing operation and the caller's original path" for every
error kind. -/
theorem c4_counterexample :
    handleCallTool ("/r".data) ("frobnicate".data)
        (some [(keyPath, JVal.str ("a.txt".data))]) ⟨[], 0⟩ =
      (mkResp (errText ("frobnicate".data) (msgUnknown ++ "frobnicate".data)), ⟨[], 0⟩) ∧
    lsub ("a.txt".data)
      (errText ("frobnicate".data) (msgUnknown ++ "frobnicate".data)) = false := by
  exact ⟨by rfl, by decide⟩

/-- C4 (amended): every call is answered with a normal single-text response
(the dispatch boundary is a total function — no protocol-level failure and
no termination); every dispatch error is rendered as the uniform
`Error processing tool '<name>': <message>` text with the filesystem
unchanged, so the text always names the failing operation; the caller's
path appears only when the thrown message itself carries it. -/
theorem c4_uniform_errors (root name : List Char) (args : Args) (fs : FS) :
    (∃ t fs2, handleCallTool root name args fs = (mkResp t, fs2)) ∧
    (∀ e, dispatchCore root name args fs = .error e →
      handleCallTool root name args fs = (mkResp (errText name e.message), fs) ∧
      lsub (shownName name) (errText name e.message) = true) := by
  constructor
  · cases hd : dispatchCore root name args fs with
    | error e => exact ⟨errText name e.message, fs, by simp [handleCallTool, hd]⟩
    | ok rp =>
      obtain ⟨r, fs2⟩ := rp
      obtain ⟨t, ht⟩ := dispatchCore_ok_shape hd
      exact ⟨t, fs2, by simp [handleCallTool, hd, ht]⟩
  · intro e he
    constructor
    · simp [handleCallTool, he]
    · have h2 := lsub_mid ("Error processing tool '".data) (shownName name)
        ("': ".data ++ e.message)
      simpa [errText, List.append_assoc] using h2

/-- C4 amended-claim witness: a valid `read_file` call gets a single-text
response, and an unknown-operation error is rendered uniformly, naming the
operation, with the filesystem unchanged. -/
theorem c4_uniform_errors_witness :
    (∃ t fs2, handleCallTool ("/r".data) nmRF
        (some [(keyPath, JVal.str ("x".data))]) ⟨[], 0⟩ = (mkResp t, fs2)) ∧
    (handleCallTool ("/r".data) ("nope".data) none ⟨[], 0⟩ =
        (mkResp (errText ("nope".data) (msgUnknown ++ "nope".data)), ⟨[], 0⟩) ∧
      lsub (shownName ("nope".data))
        (errText ("nope".data) (msgUnknown ++ "nope".data)) = true) :=
  ⟨(c4_uniform_errors ("/r".data) nmRF (some [(keyPath, JVal.str ("x".data))]) ⟨[], 0⟩).1,
   (c4_uniform_errors ("/r".data) ("nope".data) none ⟨[], 0⟩).2
     (userErr (msgUnknown ++ "nope".data)) (by rfl)⟩

/-- C5: a handler runs only for one of the six known operation names with
every required argument present as a string (`path` everywhere, plus
`content` for `write_file`); any other call — unknown or empty name,
missing or mistyped argument — produces an error response with the
filesystem unchanged and no handler invoked; and for a well-shaped call the
dispatch equals exactly the one matching handler application. -/
theorem c5_dispatch (root name : List Char) (args : Args) (fs : FS) :
    (validShape name args = false →
      ∃ m, dispatchCore root name args fs = .error (userErr m) ∧
        handleCallTool root name args fs = (mkResp (errText name m), fs)) ∧
    (name = nmLD → ∀ p, getStr args keyPath = some p →
      dispatchCore root name args fs = listDirectory root fs p) ∧
    (name = nmRF → ∀ p, getStr args keyPath = some p →
      dispatchCore root name args fs = readFile root fs p) ∧
    (name = nmWF → ∀ p c, getStr args keyPath = some p →
      getStr args keyContent = some c →
      dispatchCore root name args fs = writeFile root fs p c) ∧
    (name = nmCD → ∀ p, getStr args keyPath = some p →
      dispatchCore root name args fs = createDirectory root fs p) ∧
    (name = nmDI → ∀ p, getStr args keyPath = some p →
      dispatchCore root name args fs = deleteItem root fs p) ∧
    (name = nmGFI → ∀ p, getStr args keyPath = some p →
      dispatchCore root name args fs = getFileInfo root fs p) := by
  have qLD0 : ¬ nmLD = ([] : List Char) := by decide
  have qRF0 : ¬ nmRF = ([] : List Char) := by decide
  have qRF1 : ¬ nmRF = nmLD := by decide
  have qWF0 : ¬ nmWF = ([] : List Char) := by decide
  have qWF1 : ¬ nmWF = nmLD := by decide
  have qWF2 : ¬ nmWF = nmRF := by decide
  have qCD0 : ¬ nmCD = ([] : List Char) := by decide
  have qCD1 : ¬ nmCD = nmLD := by decide
  have qCD2 : ¬ nmCD = nmRF := by decide
  have qCD3 : ¬ nmCD = nmWF := by decide
  have qDI0 : ¬ nmDI = ([] : List Char) := by decide
  have qDI1 : ¬ nmDI = nmLD := by decide
  have qDI2 : ¬ nmDI = nmRF := by decide
  have qDI3 : ¬ nmDI = nmWF := by decide
  have qDI4 : ¬ nmDI = nmCD := by decide
  have qGF0 : ¬ nmGFI = ([] : List Char) := by decide
  have qGF1 : ¬ nmGFI = nmLD := by decide
  have qGF2 : ¬ nmGFI = nmRF := by decide
  have qGF3 : ¬ nmGFI = nmWF := by decide
  have qGF4 : ¬ nmGFI = nmCD := by decide
  have qGF5 : ¬ nmGFI = nmDI := by decide
  refine ⟨?_, ?_, ?_, ?_, ?_, ?_, ?_⟩
  · intro hbad
    suffices hdc : ∃ m, dispatchCore root name args fs = .error (userErr m) by
      obtain ⟨m, hm⟩ := hdc
      exact ⟨m, hm, by simp [handleCallTool, hm, userErr]⟩
    by_cases h0 : name = []
    · subst h0
      exact ⟨msgNoName, by simp [dispatchCore]⟩
    · by_cases h1 : name = nmLD
      · subst h1
        have hv : validShape nmLD args = (getStr args keyPath).isSome := by
          unfold validShape
          rw [if_neg (by decide), if_pos (by decide)]
        rw [hv] at hbad
        have hp : getStr args keyPath = none := by
          cases hgp : getStr args keyPath with
          | none => rfl
          | some v => rw [hgp] at hbad; simp at hbad
        exact ⟨msgMissLD, by simp [dispatchCore, hp, qLD0]⟩
      · by_cases h2 : name = nmRF
        · subst h2
          have hv : validShape nmRF args = (getStr args keyPath).isSome := by
            unfold validShape
            rw [if_neg (by decide), if_pos (by decide)]
          rw [hv] at hbad
          have hp : getStr args keyPath = none := by
            cases hgp : getStr args keyPath with
            | none => rfl
            | some v => rw [hgp] at hbad; simp at hbad
          exact ⟨msgMissRF, by simp [dispatchCore, hp, qRF0, qRF1]⟩
        · by_cases h3 : name = nmWF
          · subst h3
            have hv : validShape nmWF args =
                ((getStr args keyPath).isSome && (getStr args keyContent).isSome) := by
              unfold validShape
              rw [if_pos rfl]
            rw [hv] at hbad
            refine ⟨msgMissWF, ?_⟩
            cases hgp : getStr args keyPath with
            | none => simp [dispatchCore, hgp, qWF0, qWF1, qWF2]
            | some pv =>
              cases hgc : getStr args keyContent with
              | none => simp [dispatchCore, hgp, hgc, qWF0, qWF1, qWF2]
              | some cv => rw [hgp, hgc] at hbad; simp at hbad
          · by_cases h4 : name = nmCD
            · subst h4
              have hv : validShape nmCD args = (getStr args keyPath).isSome := by
                unfold validShape
                rw [if_neg (by decide), if_pos (by decide)]
              rw [hv] at hbad
              have hp : getStr args keyPath = none := by
                cases hgp : getStr args keyPath with
                | none => rfl
                | some v => rw [hgp] at hbad; simp at hbad
              exact ⟨msgMissCD, by simp [dispatchCore, hp, qCD0, qCD1, qCD2, qCD3]⟩
            · by_cases h5 : name = nmDI
              · subst h5
                have hv : validShape nmDI args = (getStr args keyPath).isSome := by
                  unfold validShape
                  rw [if_neg (by decide), if_pos (by decide)]
                rw [hv] at hbad
                have hp : getStr args keyPath = none := by
                  cases hgp : getStr args keyPath with
                  | none => rfl
                  | some v => rw [hgp] at hbad; simp at hbad
                exact ⟨msgMissDI, by simp [dispatchCore, hp, qDI0, qDI1, qDI2, qDI3, qDI4]⟩
              · by_cases h6 : name = nmGFI
                · subst h6
                  have hv : validShape nmGFI args = (getStr args keyPath).isSome := by
                    unfold validShape
                    rw [if_neg (by decide), if_pos (by decide)]
                  rw [hv] at hbad
                  have hp : getStr args keyPath = none := by
                    cases hgp : getStr args keyPath with
                    | none => rfl
                    | some v => rw [hgp] at hbad; simp at hbad
                  exact ⟨msgMissGFI, by simp [dispatchCore, hp, qGF0, qGF1, qGF2, qGF3, qGF4, qGF5]⟩
                · exact ⟨msgUnknown ++ name,
                    by simp [dispatchCore, h0, h1, h2, h3, h4, h5, h6]⟩
  · intro hn p hp
    subst hn
    simp [dispatchCore, hp, qLD0]
  · intro hn p hp
    subst hn
    simp [dispatchCore, hp, qRF0, qRF1]
  · intro hn p c hp hc
    subst hn
    simp [dispatchCore, hp, hc, qWF0, qWF1, qWF2]
  · intro hn p hp
    subst hn
    simp [dispatchCore, hp, qCD0, qCD1, qCD2, qCD3]
  · intro hn p hp
    subst hn
    simp [dispatchCore, hp, qDI0, qDI1, qDI2, qDI3, qDI4]
  · intro hn p hp
    subst hn
    simp [dispatchCore, hp, qGF0, qGF1, qGF2, qGF3, qGF4, qGF5]

/-- C5 witness: an unknown name with no arguments yields an error response
with unchanged state, and a well-shaped `list_directory` call dispatches to
exactly the `listDirectory` handler. -/
theorem c5_dispatch_witness :
    (∃ m, dispatchCore ("/r".data) ("frob".data) none ⟨[], 0⟩ = .error (userErr m) ∧
      handleCallTool ("/r".data) ("frob".data) none ⟨[], 0⟩ =
        (mkResp (errText ("frob".data) m), ⟨[], 0⟩)) ∧
    dispatchCore ("/r".data) nmLD (some [(keyPath, JVal.str (".".data))]) ⟨[], 0⟩ =
      listDirectory ("/r".data) ⟨[], 0⟩ (".".data) :=
  ⟨(c5_dispatch ("/r".data) ("frob".data) none ⟨[], 0⟩).1 (by decide),
   (c5_dispatch ("/r".data) nmLD (some [(keyPath, JVal.str (".".data))]) ⟨[], 0⟩).2.1
     rfl (".".data) (by rfl)⟩
